import Mathlib

/-!
Verification of the filex backend's indexing and search core against its
specification.  The embedded code comes from
`src/backend/src/services/search_index.rs`, `indexer.rs` and `metadata.rs`.

Modelling conventions:

* A Rust `&str`/`String` is modelled as the list of its Unicode scalar values
  (`Str := List Nat`), i.e. the sequence produced by `str::chars`.
* The UTF-8 byte buffer `normalized_paths : Vec<u8>` is modelled as a
  `List Nat` of bytes; `strBytes` is the UTF-8 encoding of a `Str`.
* `u32`/`usize` offsets are modelled as `Nat` (the source never comes close to
  the 2^32 wrap, which would need a > 4 GiB path buffer).
* The Unicode tables consumed by the source -- the canonical (NFD)
  decomposition from the `unicode-normalization` crate and
  `char::to_lowercase` -- are external data, modelled as a parameter
  `UnicodeData`.  The facts of the real tables that the universal proofs need
  are isolated in `GoodUnicode`; `uEx` is a concrete fragment that agrees with
  the real tables on every code point occurring in the concrete examples.
* `rayon`'s `into_par_iter().filter_map(..).collect::<Vec<_>>()` preserves the
  index order of the range it iterates, so it is modelled by a sequential
  `filterMap` over `List.range`.
-/

/-- A string as the sequence of Unicode scalar values of a Rust `&str`. -/
abbrev Str := List Nat

/-- External Unicode data used by `normalize_path`: `nfd c` is the full
canonical decomposition of the scalar value `c` (`unicode-normalization`
crate), `toLower c` is the full lowercase mapping of `c`
(`char::to_lowercase`). -/
structure UnicodeData where
  nfd : Nat → List Nat
  toLower : Nat → List Nat

/-- `is_combining_mark` from search_index.rs: membership in the five hardcoded
ranges U+0300-U+036F, U+1AB0-U+1AFF, U+1DC0-U+1DFF, U+20D0-U+20FF,
U+FE20-U+FE2F. -/
def is_combining_mark (c : Nat) : Bool :=
  decide ((0x300 ≤ c ∧ c ≤ 0x36F) ∨ (0x1AB0 ≤ c ∧ c ≤ 0x1AFF) ∨
    (0x1DC0 ≤ c ∧ c ≤ 0x1DFF) ∨ (0x20D0 ≤ c ∧ c ≤ 0x20FF) ∨
    (0xFE20 ≤ c ∧ c ≤ 0xFE2F))

/-- `normalize_path` from search_index.rs: NFD decomposition, strip the
combining marks matched by `is_combining_mark`, lowercase every remaining
character (which may expand to several). -/
def normalize_path (u : UnicodeData) (s : Str) : Str :=
  ((s.flatMap u.nfd).filter (fun c => !is_combining_mark c)).flatMap u.toLower

/-- UTF-8 encoding of one scalar value. -/
def utf8Encode (c : Nat) : List Nat :=
  if c < 0x80 then [c]
  else if c < 0x800 then [0xC0 + c / 64, 0x80 + c % 64]
  else if c < 0x10000 then [0xE0 + c / 4096, 0x80 + c / 64 % 64, 0x80 + c % 64]
  else [0xF0 + c / 262144, 0x80 + c / 4096 % 64, 0x80 + c / 64 % 64, 0x80 + c % 64]

/-- UTF-8 bytes of a string (`str::as_bytes`). -/
def strBytes (s : Str) : List Nat := s.flatMap utf8Encode

/-- Normalized UTF-8 bytes of a path, the unit stored in the shared buffer. -/
def normBytes (u : UnicodeData) (p : Str) : List Nat := strBytes (normalize_path u p)

/-- The packed in-memory index of search_index.rs.  `normalized_paths` is the
shared contiguous byte buffer, `offsets` the per-entry start offsets into it. -/
structure SearchIndex where
  ids : List Int
  offsets : List Nat
  normalized_paths : List Nat
  original_paths : List Str

/-- `SearchIndex::new` / `Default`. -/
def SearchIndex.new : SearchIndex :=
  { ids := [], offsets := [], normalized_paths := [], original_paths := [] }

/-- `Vec::iter().position(|p| p == path)`. -/
def position (p : Str) : List Str → Option Nat
  | [] => none
  | q :: qs => if q = p then some 0 else (position p qs).map (fun i => i + 1)

/-- `SearchIndex::build_from_entries` loop body, carrying the running `offset`
variable exactly as the source does. -/
def buildAux (u : UnicodeData) : List (Int × Str) → SearchIndex → Nat → SearchIndex
  | [], idx, _ => idx
  | e :: rest, idx, offset =>
    let nb := normBytes u e.2
    buildAux u rest
      { ids := idx.ids ++ [e.1],
        offsets := idx.offsets ++ [offset],
        normalized_paths := idx.normalized_paths ++ nb,
        original_paths := idx.original_paths ++ [e.2] }
      (offset + nb.length)

/-- `SearchIndex::build_from_entries`. -/
def build_from_entries (u : UnicodeData) (entries : List (Int × Str)) : SearchIndex :=
  buildAux u entries SearchIndex.new 0

/-- `SearchIndex::get_path_bytes`: the byte slice of entry `i`, from its
offset to the next entry's offset (or the end of the buffer for the last
entry). -/
def get_path_bytes (idx : SearchIndex) (i : Nat) : List Nat :=
  let start := idx.offsets.getD i 0
  let stop := if i + 1 < idx.offsets.length then idx.offsets.getD (i + 1) 0
    else idx.normalized_paths.length
  (idx.normalized_paths.drop start).take (stop - start)

/-- Literal byte-substring containment: does `needle` occur contiguously in
the haystack?  This is what `memmem::Finder::find(..).is_some()` decides. -/
def containsBytes (needle : List Nat) : List Nat → Bool
  | [] => needle.isEmpty
  | b :: rest => needle.isPrefixOf (b :: rest) || containsBytes needle rest

/-- `SearchIndex::search_single_term`: normalize the term, then for every
entry in index order test the needle as a literal byte substring
(`memmem::Finder::find(..).is_some()`). -/
def search_single_term (u : UnicodeData) (idx : SearchIndex) (term : Str) : List Int :=
  let needle := strBytes (normalize_path u term)
  if needle.isEmpty then []
  else
    (List.range idx.ids.length).filterMap fun i =>
      if containsBytes needle (get_path_bytes idx i) then some (idx.ids.getD i 0) else none

/-- The pattern index that the Aho-Corasick automaton with default
(`MatchKind::Standard`) semantics reports when some pattern ends at the
current position: among the patterns that are suffixes of the text read since
the last restart, the longest one (a match state lists its own -- longest --
pattern first, then the matches of its suffix links); for duplicate patterns
the lower identifier. -/
def bestPattern (pats : List (List Nat)) (w : List Nat) : Option Nat :=
  match (List.range pats.length).filter (fun i => (pats.getD i []).isSuffixOf w) with
  | [] => none
  | c :: cs =>
    some (cs.foldl (fun b i =>
      if (pats.getD b []).length < (pats.getD i []).length then i else b) c)

/-- `ac.find_iter(path_bytes)` marking loop: scan left to right, report the
first (earliest-ending) match, then continue the non-overlapping iteration
from the end of that match (the automaton restarts at its root state), setting
`matched[pattern] = true` for each reported match.  `window` is the text read
since the last restart. -/
def acMarks (pats : List (List Nat)) : List Nat → List Nat → List Bool → List Bool
  | _, [], marks => marks
  | window, b :: rest, marks =>
    match bestPattern pats (window ++ [b]) with
    | some i => acMarks pats [] rest (marks.set i true)
    | none => acMarks pats (window ++ [b]) rest marks

/-- `SearchIndex::search_multi_term`: normalize all terms, drop the empty
ones, build the automaton (construction never fails for these inputs), and
keep an entry only if every pattern was reported somewhere in its bytes. -/
def search_multi_term (u : UnicodeData) (idx : SearchIndex) (terms : List Str) : List Int :=
  let normalized_terms := terms.map (normalize_path u)
  let non_empty_terms := (normalized_terms.filter (fun t => !t.isEmpty)).map strBytes
  if non_empty_terms.isEmpty then []
  else
    (List.range idx.ids.length).filterMap fun i =>
      let matched := acMarks non_empty_terms [] (get_path_bytes idx i)
        (List.replicate non_empty_terms.length false)
      if matched.all (fun m => m) then some (idx.ids.getD i 0) else none

/-- Rust `char::is_whitespace`, i.e. the Unicode `White_Space` property
(a fixed 25-element set of code points). -/
def isUnicodeWhitespace (c : Nat) : Bool :=
  decide (c ∈ ([0x9, 0xA, 0xB, 0xC, 0xD, 0x20, 0x85, 0xA0, 0x1680,
    0x2000, 0x2001, 0x2002, 0x2003, 0x2004, 0x2005, 0x2006, 0x2007, 0x2008,
    0x2009, 0x200A, 0x2028, 0x2029, 0x202F, 0x205F, 0x3000] : List Nat))

/-- `str::split_whitespace` helper: `acc` is the current token, reversed. -/
def splitWhAux : Str → Str → List Str
  | [], acc => if acc.isEmpty then [] else [acc.reverse]
  | c :: rest, acc =>
    if isUnicodeWhitespace c then
      if acc.isEmpty then splitWhAux rest [] else acc.reverse :: splitWhAux rest []
    else splitWhAux rest (c :: acc)

/-- `str::split_whitespace`: the maximal non-whitespace runs, in order. -/
def splitWh (s : Str) : List Str := splitWhAux s []

/-- `SearchIndex::search`: tokenize the query on whitespace, then dispatch on
the token count (0 / 1 / several).  The timing and logging of the source are
side effects with no bearing on the result and are not modelled. -/
def search (u : UnicodeData) (idx : SearchIndex) (query : Str) : List Int :=
  let terms := (splitWh query).filter (fun t => !t.isEmpty)
  match terms with
  | [] => []
  | [t] => search_single_term u idx t
  | t1 :: t2 :: rest => search_multi_term u idx (t1 :: t2 :: rest)

/-- `SearchIndex::add_entry`: append the normalized bytes at the buffer's
tail and push the new start offset. -/
def add_entry (u : UnicodeData) (idx : SearchIndex) (id : Int) (path : Str) : SearchIndex :=
  let nb := normBytes u path
  { ids := idx.ids ++ [id],
    offsets := idx.offsets ++ [idx.normalized_paths.length],
    normalized_paths := idx.normalized_paths ++ nb,
    original_paths := idx.original_paths ++ [path] }

/-- `SearchIndex::remove_entry`: locate the entry by original path; on a miss
return `false` and leave the index untouched; otherwise excise its byte range,
remove its slot from every parallel vector and shift the offsets at positions
`≥ idx` down by the removed length.  The mutation is modelled by returning the
updated index alongside the `bool`. -/
def remove_entry (idx : SearchIndex) (path : Str) : Bool × SearchIndex :=
  match position path idx.original_paths with
  | none => (false, idx)
  | some i =>
    let start := idx.offsets.getD i 0
    let stop := if i + 1 < idx.offsets.length then idx.offsets.getD (i + 1) 0
      else idx.normalized_paths.length
    let removed_len := stop - start
    (true,
      { ids := idx.ids.eraseIdx i,
        offsets := ((idx.offsets.eraseIdx i).take i) ++
          (((idx.offsets.eraseIdx i).drop i).map (fun o => o - removed_len)),
        normalized_paths := idx.normalized_paths.take start ++ idx.normalized_paths.drop stop,
        original_paths := idx.original_paths.eraseIdx i })

/-- `SearchIndex::rename_entry`: locate by old path; on a miss return `false`
unchanged; otherwise store the new original path, splice the new normalized
bytes over the old byte range and shift the offsets at positions `> idx` by
the length difference (computed in `i64` and cast back, the source's
`(*offset as i64 + len_diff) as u32`). -/
def rename_entry (u : UnicodeData) (idx : SearchIndex) (old_path new_path : Str) :
    Bool × SearchIndex :=
  match position old_path idx.original_paths with
  | none => (false, idx)
  | some i =>
    let old_start := idx.offsets.getD i 0
    let old_stop := if i + 1 < idx.offsets.length then idx.offsets.getD (i + 1) 0
      else idx.normalized_paths.length
    let old_len := old_stop - old_start
    let new_bytes := normBytes u new_path
    let len_diff : Int := (new_bytes.length : Int) - (old_len : Int)
    (true,
      { ids := idx.ids,
        offsets := if len_diff = 0 then idx.offsets
          else (idx.offsets.take (i + 1)) ++
            ((idx.offsets.drop (i + 1)).map (fun (o : Nat) => ((o : Int) + len_diff).toNat)),
        normalized_paths := idx.normalized_paths.take old_start ++ new_bytes ++
          idx.normalized_paths.drop old_stop,
        original_paths := idx.original_paths.set i new_path })

/-- One mutation of the index, for stating op-sequence properties. -/
inductive Op where
  | add (id : Int) (path : Str)
  | remove (path : Str)
  | rename (old_path new_path : Str)

/-- Apply one mutation to the concrete index (the returned `bool` of
remove/rename is dropped). -/
def applyOp (u : UnicodeData) (idx : SearchIndex) : Op → SearchIndex
  | Op.add id p => add_entry u idx id p
  | Op.remove p => (remove_entry idx p).2
  | Op.rename p q => (rename_entry u idx p q).2

/-- The abstract effect of one mutation on the list of (id, path) entries:
append, erase the first entry with the path, or update the first entry's
path. -/
def setPath : List (Int × Str) → Nat → Str → List (Int × Str)
  | [], _, _ => []
  | e :: es, 0, q => (e.1, q) :: es
  | e :: es, i + 1, q => e :: setPath es i q

/-- Abstract (id, path)-list semantics of one mutation. -/
def applyAbs (l : List (Int × Str)) : Op → List (Int × Str)
  | Op.add id p => l ++ [(id, p)]
  | Op.remove p =>
    match position p (l.map Prod.snd) with
    | none => l
    | some i => l.eraseIdx i
  | Op.rename p q =>
    match position p (l.map Prod.snd) with
    | none => l
    | some i => setPath l i q

/-- Per-entry byte length in the shared buffer. -/
def segLen (u : UnicodeData) (e : Int × Str) : Nat := (normBytes u e.2).length

/-- The shared buffer a list of entries produces. -/
def bufOf (u : UnicodeData) (l : List (Int × Str)) : List Nat :=
  (l.map (fun e => normBytes u e.2)).flatten

/-- The offset table a list of entries produces, starting at `a`. -/
def offsOf (u : UnicodeData) : List (Int × Str) → Nat → List Nat
  | [], _ => []
  | e :: es, a => a :: offsOf u es (a + segLen u e)

/-- Canonical packed form of a list of entries (shown below to be exactly what
`build_from_entries` produces and what every mutation preserves). -/
def mkIndex (u : UnicodeData) (l : List (Int × Str)) : SearchIndex :=
  { ids := l.map Prod.fst,
    offsets := offsOf u l 0,
    normalized_paths := bufOf u l,
    original_paths := l.map Prod.snd }

/-- Bytes consumed by the first `j` entries. -/
def segsum (u : UnicodeData) (l : List (Int × Str)) (j : Nat) : Nat :=
  ((l.take j).map (segLen u)).sum

/-- The packed-index structural invariant: the parallel vectors have equal
length, the offset table is monotonically non-decreasing, and the per-entry
byte ranges, in order, partition the shared buffer with no gaps or overlaps. -/
def Packed (idx : SearchIndex) : Prop :=
  idx.ids.length = idx.original_paths.length ∧
  idx.offsets.length = idx.original_paths.length ∧
  idx.offsets.Pairwise (· ≤ ·) ∧
  (List.range idx.offsets.length).flatMap (fun i => get_path_bytes idx i) = idx.normalized_paths

/-! ## Indexer single-flight coordination (indexer.rs) -/

/-- `IndexStats` from indexer.rs: the six `u64` scan counters. -/
structure IndexStats where
  files_scanned : Nat
  files_indexed : Nat
  files_updated : Nat
  files_removed : Nat
  files_skipped : Nat
  errors : Nat

/-- `IndexStats::default()`: every counter zero. -/
def IndexStats.zero : IndexStats := ⟨0, 0, 0, 0, 0, 0⟩

/-- Observable outcome of one `run_full_index` call: the returned
`Result<IndexStats>`, the value of the `is_running` flag at the point the call
returns, and whether the store vacuum and the filesystem walk (`do_index`)
were started. -/
structure RunOutcome (ε : Type) where
  result : Except ε IndexStats
  running_after : Bool
  vacuumed : Bool
  walked : Bool

/-- `IndexerService::run_full_index` control flow: read the `is_running`
flag; if set, return `Ok(IndexStats::default())` at once (no vacuum, no
walk); otherwise set it, vacuum (its own failure is only logged), run the scan
body `do_index` -- whose `Ok`/`Err` result `doIndex` is a parameter here --
and clear the flag before returning that result. -/
def run_full_index (ε : Type) (running : Bool) (doIndex : Except ε IndexStats) :
    RunOutcome ε :=
  if running then
    { result := Except.ok IndexStats.zero, running_after := running,
      vacuumed := false, walked := false }
  else
    { result := doIndex, running_after := false, vacuumed := true, walked := true }

/-! ## Metadata extraction (metadata.rs) -/

/-- One entry of ffprobe's `streams` array, with the fields the source reads.
Durations arrive as strings and are parsed with `str::parse::<f64>`; the
parser is kept as a parameter below. -/
structure FfprobeStream where
  codec_type : Option Str
  codec_name : Option Str
  width : Option Int
  height : Option Int
  duration : Option Str

/-- ffprobe's `format` object, with the fields the source reads. -/
structure FfprobeFormat where
  format_name : Option Str
  duration : Option Str

/-- Successfully parsed ffprobe JSON output. -/
structure FfprobeOutput where
  format : Option FfprobeFormat
  streams : Option (List FfprobeStream)

/-- `MediaMetadata` from metadata.rs (duration generalized over the result
type of the `f64` parser). -/
structure MediaMetadata (α : Type) where
  width : Option Int := none
  height : Option Int := none
  duration : Option α := none
  codec : Option Str := none
  format : Option Str := none

/-- The scalar values of `"video"`. -/
def videoT : Str := [118, 105, 100, 101, 111]

/-- The scalar values of `"audio"`. -/
def audioT : Str := [97, 117, 100, 105, 111]

/-- The stream loop of `MetadataService::extract`: the first video stream
supplies dimensions/codec, and its parseable duration overrides anything set
so far, then the loop breaks; an audio stream is consulted only while the
duration is still `None` (it sets `duration = dur.parse().ok()` and fills a
missing codec). -/
def scanStreams {α : Type} (parse : Str → Option α) :
    List FfprobeStream → MediaMetadata α → MediaMetadata α
  | [], m => m
  | s :: rest, m =>
    if s.codec_type = some videoT then
      let m1 := { m with width := s.width, height := s.height, codec := s.codec_name }
      match s.duration with
      | some dur =>
        match parse dur with
        | some d => { m1 with duration := some d }
        | none => m1
      | none => m1
    else if s.codec_type = some audioT ∧ m.duration.isNone then
      let m1 :=
        match s.duration with
        | some dur => { m with duration := parse dur }
        | none => m
      let m2 := if m1.codec.isNone then { m1 with codec := s.codec_name } else m1
      scanStreams parse rest m2
    else
      scanStreams parse rest m

/-- The pure tail of `MetadataService::extract` (after the subprocess ran and
its JSON parsed): start from a default `MediaMetadata`, copy the format name
and the container duration (`metadata.duration = dur.parse().ok()`), then run
the stream loop. -/
def extract {α : Type} (parse : Str → Option α) (d : FfprobeOutput) : MediaMetadata α :=
  let m1 : MediaMetadata α :=
    match d.format with
    | some f =>
      match f.duration with
      | some dur => { width := none, height := none, duration := parse dur,
                      codec := none, format := f.format_name }
      | none => { width := none, height := none, duration := none,
                  codec := none, format := f.format_name }
    | none => {}
  match d.streams with
  | some streams => scanStreams parse streams m1
  | none => m1

/-- Duration of the first video stream, when parseable: the value the stream
loop prefers. -/
def videoDur {α : Type} (parse : Str → Option α) (ss : List FfprobeStream) : Option α :=
  match ss.find? (fun s => s.codec_type == some videoT) with
  | some s =>
    match s.duration with
    | some dur => parse dur
    | none => none
  | none => none

/-- First parseable audio duration among the streams preceding the first
video stream (the only audio streams the loop can reach). -/
def audioDur {α : Type} (parse : Str → Option α) (ss : List FfprobeStream) : Option α :=
  ((ss.takeWhile (fun s => !(s.codec_type == some videoT))).filter
    (fun s => s.codec_type == some audioT)).findSome? fun s =>
      match s.duration with
      | some dur => parse dur
      | none => none

/-- Container-level duration, when present and parseable. -/
def formatDur {α : Type} (parse : Str → Option α) (d : FfprobeOutput) : Option α :=
  match d.format with
  | some f =>
    match f.duration with
    | some dur => parse dur
    | none => none
  | none => none

/-- Duration of the first video stream of a probe output (empty stream list
when absent). -/
def firstVideoDur {α : Type} (parse : Str → Option α) (d : FfprobeOutput) : Option α :=
  videoDur parse (d.streams.getD [])

/-- First parseable audio duration before the first video stream of a probe
output. -/
def firstAudioDur {α : Type} (parse : Str → Option α) (d : FfprobeOutput) : Option α :=
  audioDur parse (d.streams.getD [])

/-- `Option` preference: the first operand when it is `some`. -/
def orO {α : Type} (a b : Option α) : Option α :=
  match a with
  | some x => some x
  | none => b

/-! ## Concrete Unicode fragment and example data -/

/-- Association-list lookup for the concrete tables. -/
def tlookup : List (Nat × List Nat) → Nat → Option (List Nat)
  | [], _ => none
  | e :: es, c => if e.1 = c then some e.2 else tlookup es c

/-- Canonical decompositions of the non-ASCII code points used in the
concrete examples, as in the real Unicode data: É = U+00C9 → E + U+0301,
é = U+00E9 → e + U+0301, İ = U+0130 → I + U+0307, ガ = U+30AC → カ U+30AB +
U+3099 (katakana voicing mark). -/
def nfdTable : List (Nat × List Nat) :=
  [(0xC9, [0x45, 0x301]), (0xE9, [0x65, 0x301]),
   (0x130, [0x49, 0x307]), (0x30AC, [0x30AB, 0x3099])]

/-- A concrete `UnicodeData` that agrees with the real tables on every code
point occurring in the concrete inputs of this file: `nfd` is `nfdTable` with
identity elsewhere (exact on ASCII and on U+0301, U+0307, U+30AB, U+3099, all
NFD-stable), `toLower` is the ASCII case mapping (exact on ASCII and on the
caseless marks and katakana above). -/
def nfdEx (c : Nat) : List Nat := (tlookup nfdTable c).getD [c]

/-- ASCII lowercase mapping (agreeing with `char::to_lowercase` on every code
point used in the concrete inputs of this file). -/
def asciiLower (c : Nat) : List Nat := if 65 ≤ c ∧ c ≤ 90 then [c + 32] else [c]

def uEx : UnicodeData := { nfd := nfdEx, toLower := asciiLower }

/-- The facts of the real Unicode tables (unicode-normalization's NFD and
`char::to_lowercase`) that the universal normalization proofs rest on:
(1) NFD is a *full* decomposition -- every scalar it emits is NFD-stable;
(2) for an NFD-stable scalar that survives the combining-mark filter, each
scalar of its lowercase expansion is NFD-stable, is not a filtered combining
mark, and is fixed by lowercasing.  (2) holds of the real data because the
only multi-character lowercase expansion, İ U+0130 → i + U+0307, starts from
a decomposable scalar, and simple lowercase mappings send NFD-stable
non-mark letters to NFD-stable non-mark letters, idempotently. -/
def GoodUnicode (u : UnicodeData) : Prop :=
  (∀ c d, d ∈ u.nfd c → u.nfd d = [d]) ∧
  (∀ c d, u.nfd c = [c] → is_combining_mark c = false → d ∈ u.toLower c →
    u.nfd d = [d] ∧ is_combining_mark d = false ∧ u.toLower d = [d])

/-- "/docs/report.txt" -/
def pathReport : Str := [47, 100, 111, 99, 115, 47, 114, 101, 112, 111, 114, 116, 46, 116, 120, 116]

/-- "/docs/notes.txt" -/
def pathNotes : Str := [47, 100, 111, 99, 115, 47, 110, 111, 116, 101, 115, 46, 116, 120, 116]

/-- "/images/photo.jpg" -/
def pathPhoto : Str := [47, 105, 109, 97, 103, 101, 115, 47, 112, 104, 111, 116, 111, 46, 106, 112, 103]

/-- The three-entry example corpus of the spec. -/
def entriesEx : List (Int × Str) := [(1, pathReport), (2, pathNotes), (3, pathPhoto)]

/-- "report" -/
def qReport : Str := [114, 101, 112, 111, 114, 116]

/-- "docs" -/
def qDocs : Str := [100, 111, 99, 115]

/-- "zzz" -/
def qZzz : Str := [122, 122, 122]

/-- "café" (with precomposed é U+00E9) -/
def cafeAcc : Str := [99, 97, 102, 0xE9]

/-- "cafe" -/
def cafePlain : Str := [99, 97, 102, 101]

/-- "RÉSUMÉ" (with precomposed É U+00C9) -/
def resumeUpper : Str := [82, 0xC9, 83, 85, 77, 0xC9]

/-- "resume" -/
def resumePlain : Str := [114, 101, 115, 117, 109, 101]

/-- "aba" -/
def abaS : Str := [97, 98, 97]

/-- "ab" -/
def abS : Str := [97, 98]

/-- "ba" -/
def baS : Str := [98, 97]

/-- "ab ba" -/
def abbaQ : Str := [97, 98, 32, 98, 97]

/-- "/a" -/
def pathA : Str := [47, 97]

/-- "/nope" -/
def pathNope : Str := [47, 110, 111, 112, 101]

/-! ## Normalization lemmas -/

/-- Per-character action of `normalize_path`. -/
def normChar (u : UnicodeData) (c : Nat) : List Nat :=
  ((u.nfd c).filter (fun d => !is_combining_mark d)).flatMap u.toLower

theorem normalize_path_eq_flatMap (u : UnicodeData) (s : Str) :
    normalize_path u s = s.flatMap (normChar u) := by
  unfold normalize_path normChar
  rw [List.filter_flatMap, List.flatMap_assoc]

theorem flatMap_fixed {g : Nat → List Nat} :
    ∀ {L : List Nat}, (∀ d ∈ L, g d = [d]) → L.flatMap g = L := by
  intro L
  induction L with
  | nil => intro _; rfl
  | cons a L ih =>
    intro h
    rw [List.flatMap_cons, h a (by simp), ih (fun d hd => h d (by simp [hd]))]
    rfl

theorem normChar_fixed {u : UnicodeData} (hu : GoodUnicode u) (c : Nat) :
    ∀ d ∈ normChar u c, normChar u d = [d] ∧ is_combining_mark d = false := by
  intro d hd
  unfold normChar at hd
  rcases List.mem_flatMap.mp hd with ⟨c', hc', hd'⟩
  rcases List.mem_filter.mp hc' with ⟨hc'nfd, hc'f⟩
  have hnfdc' : u.nfd c' = [c'] := hu.1 c c' hc'nfd
  have hcomb : is_combining_mark c' = false := by simpa using hc'f
  obtain ⟨h1, h2, h3⟩ := hu.2 c' d hnfdc' hcomb hd'
  refine ⟨?_, h2⟩
  unfold normChar
  rw [h1]
  simp [h2, h3]

theorem normalize_path_mem_fixed {u : UnicodeData} (hu : GoodUnicode u) (s : Str) :
    ∀ d ∈ normalize_path u s, normChar u d = [d] ∧ is_combining_mark d = false := by
  intro d hd
  rw [normalize_path_eq_flatMap] at hd
  rcases List.mem_flatMap.mp hd with ⟨c, _, hdc⟩
  exact normChar_fixed hu c d hdc

theorem normalize_path_idem {u : UnicodeData} (hu : GoodUnicode u) (s : Str) :
    normalize_path u (normalize_path u s) = normalize_path u s := by
  rw [normalize_path_eq_flatMap u (normalize_path u s)]
  exact flatMap_fixed (fun d hd => (normalize_path_mem_fixed hu s d hd).1)

theorem goodUEx_nfd : ∀ c d, d ∈ uEx.nfd c → uEx.nfd d = [d] := by
  intro c d hd
  by_cases h1 : c = 0xC9
  · subst h1
    have he : uEx.nfd 0xC9 = [0x45, 0x301] := rfl
    rw [he] at hd
    simp only [List.mem_cons, List.not_mem_nil, or_false] at hd
    rcases hd with h | h <;> subst h <;> rfl
  by_cases h2 : c = 0xE9
  · subst h2
    have he : uEx.nfd 0xE9 = [0x65, 0x301] := rfl
    rw [he] at hd
    simp only [List.mem_cons, List.not_mem_nil, or_false] at hd
    rcases hd with h | h <;> subst h <;> rfl
  by_cases h3 : c = 0x130
  · subst h3
    have he : uEx.nfd 0x130 = [0x49, 0x307] := rfl
    rw [he] at hd
    simp only [List.mem_cons, List.not_mem_nil, or_false] at hd
    rcases hd with h | h <;> subst h <;> rfl
  by_cases h4 : c = 0x30AC
  · subst h4
    have he : uEx.nfd 0x30AC = [0x30AB, 0x3099] := rfl
    rw [he] at hd
    simp only [List.mem_cons, List.not_mem_nil, or_false] at hd
    rcases hd with h | h <;> subst h <;> rfl
  · have hnone : tlookup nfdTable c = none := by
      have e1 : ¬ ((0xC9 : Nat) = c) := fun h => h1 h.symm
      have e2 : ¬ ((0xE9 : Nat) = c) := fun h => h2 h.symm
      have e3 : ¬ ((0x130 : Nat) = c) := fun h => h3 h.symm
      have e4 : ¬ ((0x30AC : Nat) = c) := fun h => h4 h.symm
      simp [nfdTable, tlookup, e1, e2, e3, e4]
    have he : uEx.nfd c = [c] := by
      show nfdEx c = [c]
      unfold nfdEx
      rw [hnone]
      rfl
    rw [he] at hd
    simp only [List.mem_cons, List.not_mem_nil, or_false] at hd
    subst hd
    exact he

theorem goodUEx : GoodUnicode uEx := by
  refine ⟨goodUEx_nfd, ?_⟩
  intro c d hnfd hcomb hd
  have htl : uEx.toLower c = asciiLower c := rfl
  by_cases hc : 65 ≤ c ∧ c ≤ 90
  · have he : uEx.toLower c = [c + 32] := by
      rw [htl]; unfold asciiLower; rw [if_pos hc]
    rw [he] at hd
    simp only [List.mem_cons, List.not_mem_nil, or_false] at hd
    subst hd
    refine ⟨?_, ?_, ?_⟩
    · have hnone : tlookup nfdTable (c + 32) = none := by
        have e1 : ¬ ((0xC9 : Nat) = c + 32) := by omega
        have e2 : ¬ ((0xE9 : Nat) = c + 32) := by omega
        have e3 : ¬ ((0x130 : Nat) = c + 32) := by omega
        have e4 : ¬ ((0x30AC : Nat) = c + 32) := by omega
        simp [nfdTable, tlookup, e1, e2, e3, e4]
      show nfdEx (c + 32) = [c + 32]
      unfold nfdEx
      rw [hnone]
      rfl
    · unfold is_combining_mark
      rw [decide_eq_false_iff_not]
      omega
    · show asciiLower (c + 32) = [c + 32]
      unfold asciiLower
      rw [if_neg (by omega)]
  · have he : uEx.toLower c = [c] := by
      rw [htl]; unfold asciiLower; rw [if_neg hc]
    rw [he] at hd
    simp only [List.mem_cons, List.not_mem_nil, or_false] at hd
    subst hd
    exact ⟨hnfd, hcomb, he⟩

/-! ## Packed-index lemmas -/

theorem segsum_nil (u : UnicodeData) (l : List (Int × Str)) : segsum u l 0 = 0 := rfl

theorem segsum_cons (u : UnicodeData) (e : Int × Str) (es : List (Int × Str)) (j : Nat) :
    segsum u (e :: es) (j + 1) = segLen u e + segsum u es j := by
  unfold segsum
  rw [List.take_succ_cons, List.map_cons, List.sum_cons]

theorem segsum_succ (u : UnicodeData) (l : List (Int × Str)) (j : Nat) (h : j < l.length) :
    segsum u l (j + 1) = segsum u l j + segLen u l[j] := by
  unfold segsum
  rw [List.take_add, List.map_append, List.sum_append]
  congr 1
  rw [List.drop_eq_getElem_cons h, List.take_succ_cons, List.take_zero]
  simp

theorem segsum_mono (u : UnicodeData) (l : List (Int × Str)) {i j : Nat} (h : i ≤ j) :
    segsum u l i ≤ segsum u l j := by
  unfold segsum
  rw [show j = i + (j - i) by omega, List.take_add, List.map_append, List.sum_append]
  exact Nat.le_add_right _ _

theorem bufOf_append (u : UnicodeData) (l1 l2 : List (Int × Str)) :
    bufOf u (l1 ++ l2) = bufOf u l1 ++ bufOf u l2 := by
  unfold bufOf
  rw [List.map_append, List.flatten_append]

theorem bufOf_length (u : UnicodeData) (l : List (Int × Str)) :
    (bufOf u l).length = (l.map (segLen u)).sum := by
  unfold bufOf
  rw [List.length_flatten, List.map_map]
  rfl

theorem bufOf_take_length (u : UnicodeData) (l : List (Int × Str)) (j : Nat) :
    (bufOf u (l.take j)).length = segsum u l j := by
  rw [bufOf_length]
  rfl

theorem segsum_full (u : UnicodeData) (l : List (Int × Str)) :
    segsum u l l.length = (bufOf u l).length := by
  rw [bufOf_length]
  unfold segsum
  rw [List.take_length]

theorem offsOf_length (u : UnicodeData) :
    ∀ (l : List (Int × Str)) (a : Nat), (offsOf u l a).length = l.length := by
  intro l
  induction l with
  | nil => intro a; rfl
  | cons e es ih => intro a; simp [offsOf, ih]

theorem offsOf_getElem? (u : UnicodeData) :
    ∀ (l : List (Int × Str)) (a j : Nat),
      (offsOf u l a)[j]? = if j < l.length then some (a + segsum u l j) else none := by
  intro l
  induction l with
  | nil => intro a j; simp [offsOf]
  | cons e es ih =>
    intro a j
    cases j with
    | zero => simp [offsOf, segsum_nil]
    | succ j =>
      rw [show offsOf u (e :: es) a = a :: offsOf u es (a + segLen u e) from rfl,
        List.getElem?_cons_succ, ih]
      by_cases hj : j < es.length
      · rw [if_pos hj, if_pos (by simpa using Nat.succ_lt_succ hj)]
        rw [segsum_cons]
        congr 1
        omega
      · rw [if_neg hj, if_neg (by simpa using hj)]

theorem offsOf_getD (u : UnicodeData) (l : List (Int × Str)) (a j : Nat) (h : j < l.length) :
    (offsOf u l a).getD j 0 = a + segsum u l j := by
  rw [List.getD_eq_getElem?_getD, offsOf_getElem?, if_pos h]
  rfl

theorem offsOf_lb (u : UnicodeData) :
    ∀ (l : List (Int × Str)) (a : Nat), ∀ x ∈ offsOf u l a, a ≤ x := by
  intro l
  induction l with
  | nil => intro a x hx; simp [offsOf] at hx
  | cons e es ih =>
    intro a x hx
    rw [show offsOf u (e :: es) a = a :: offsOf u es (a + segLen u e) from rfl] at hx
    rcases List.mem_cons.mp hx with h | h
    · omega
    · have := ih (a + segLen u e) x h
      omega

theorem offsOf_pairwise (u : UnicodeData) :
    ∀ (l : List (Int × Str)) (a : Nat), (offsOf u l a).Pairwise (· ≤ ·) := by
  intro l
  induction l with
  | nil => intro a; simp [offsOf]
  | cons e es ih =>
    intro a
    rw [show offsOf u (e :: es) a = a :: offsOf u es (a + segLen u e) from rfl]
    refine List.Pairwise.cons ?_ (ih _)
    intro x hx
    have := offsOf_lb u es (a + segLen u e) x hx
    omega

theorem buildAux_spec (u : UnicodeData) :
    ∀ (l : List (Int × Str)) (idx : SearchIndex),
      buildAux u l idx idx.normalized_paths.length =
        { ids := idx.ids ++ l.map Prod.fst,
          offsets := idx.offsets ++ offsOf u l idx.normalized_paths.length,
          normalized_paths := idx.normalized_paths ++ bufOf u l,
          original_paths := idx.original_paths ++ l.map Prod.snd } := by
  intro l
  induction l with
  | nil =>
    intro idx
    show idx = _
    simp [offsOf, bufOf]
  | cons e es ih =>
    intro idx
    show buildAux u es
      { ids := idx.ids ++ [e.1],
        offsets := idx.offsets ++ [idx.normalized_paths.length],
        normalized_paths := idx.normalized_paths ++ normBytes u e.2,
        original_paths := idx.original_paths ++ [e.2] }
      (idx.normalized_paths.length + (normBytes u e.2).length) = _
    have hlen : idx.normalized_paths.length + (normBytes u e.2).length
        = (idx.normalized_paths ++ normBytes u e.2).length := by simp
    rw [hlen, ih]
    show SearchIndex.mk _ _ _ _ = SearchIndex.mk _ _ _ _
    congr 1 <;> simp [offsOf, bufOf, segLen]

theorem build_eq_mk (u : UnicodeData) (l : List (Int × Str)) :
    build_from_entries u l = mkIndex u l := by
  have h := buildAux_spec u l SearchIndex.new
  unfold build_from_entries mkIndex
  simpa [SearchIndex.new] using h

theorem bufOf_cons (u : UnicodeData) (e : Int × Str) (es : List (Int × Str)) :
    bufOf u (e :: es) = normBytes u e.2 ++ bufOf u es := by
  simp [bufOf]

theorem bufOf_drop (u : UnicodeData) (l : List (Int × Str)) (i : Nat) :
    (bufOf u l).drop (segsum u l i) = bufOf u (l.drop i) := by
  have h1 : bufOf u l = bufOf u (l.take i) ++ bufOf u (l.drop i) := by
    rw [← bufOf_append, List.take_append_drop]
  rw [h1, ← bufOf_take_length u l i]
  exact List.drop_left _ _

theorem get_path_bytes_mk (u : UnicodeData) (l : List (Int × Str)) (i : Nat)
    (h : i < l.length) :
    get_path_bytes (mkIndex u l) i = normBytes u l[i].2 := by
  have hstart : (offsOf u l 0).getD i 0 = segsum u l i := by
    rw [offsOf_getD u l 0 i h]; omega
  have hstop : (if i + 1 < l.length then (offsOf u l 0).getD (i + 1) 0
      else (bufOf u l).length) = segsum u l (i + 1) := by
    by_cases h2 : i + 1 < l.length
    · rw [if_pos h2, offsOf_getD u l 0 (i + 1) h2]; omega
    · rw [if_neg h2]
      have h3 : i + 1 = l.length := by omega
      rw [h3, segsum_full]
  have hlen : (mkIndex u l).offsets.length = l.length := offsOf_length u l 0
  show ((mkIndex u l).normalized_paths.drop ((mkIndex u l).offsets.getD i 0)).take
      ((if i + 1 < (mkIndex u l).offsets.length then (mkIndex u l).offsets.getD (i + 1) 0
        else (mkIndex u l).normalized_paths.length) - (mkIndex u l).offsets.getD i 0) = _
  rw [show (mkIndex u l).offsets = offsOf u l 0 from rfl,
    show (mkIndex u l).normalized_paths = bufOf u l from rfl, offsOf_length,
    hstart, hstop, bufOf_drop, List.drop_eq_getElem_cons h, bufOf_cons]
  have hseg : segsum u l (i + 1) - segsum u l i = segLen u l[i] := by
    have := segsum_succ u l i h
    omega
  rw [hseg, show segLen u l[i] = (normBytes u l[i].2).length from rfl]
  exact List.take_left _ _

/-! ## Mutation lemmas -/

theorem position_eq_none {p : Str} : ∀ {L : List Str}, p ∉ L → position p L = none := by
  intro L
  induction L with
  | nil => intro _; rfl
  | cons q qs ih =>
    intro h
    have h1 : ¬ (q = p) := fun hq => h (by simp [hq])
    have h2 : p ∉ qs := fun hm => h (List.mem_cons_of_mem _ hm)
    unfold position
    rw [if_neg h1, ih h2]
    rfl

theorem position_some_lt {p : Str} :
    ∀ {L : List Str} {i : Nat}, position p L = some i → i < L.length := by
  intro L
  induction L with
  | nil => intro i h; simp [position] at h
  | cons q qs ih =>
    intro i h
    unfold position at h
    by_cases hq : q = p
    · rw [if_pos hq] at h
      injection h with h
      rw [List.length_cons]
      omega
    · rw [if_neg hq] at h
      cases hp : position p qs with
      | none => rw [hp] at h; simp at h
      | some j =>
        rw [hp] at h
        simp only [Option.map_some'] at h
        injection h with h
        have := ih hp
        rw [List.length_cons]
        omega

theorem map_eraseIdx {α β : Type} (f : α → β) :
    ∀ (l : List α) (i : Nat), (l.map f).eraseIdx i = (l.eraseIdx i).map f := by
  intro l
  induction l with
  | nil => intro i; rfl
  | cons a as ih =>
    intro i
    cases i with
    | zero => rfl
    | succ i => simp [List.eraseIdx_cons_succ, ih]

theorem eraseIdx_eq_take_drop {α : Type} :
    ∀ (l : List α) (i : Nat), l.eraseIdx i = l.take i ++ l.drop (i + 1) := by
  intro l
  induction l with
  | nil => intro i; simp
  | cons a as ih =>
    intro i
    cases i with
    | zero => simp
    | succ i => simp [List.eraseIdx_cons_succ, List.take_succ_cons, ih]

theorem segsum_eraseIdx_le (u : UnicodeData) (l : List (Int × Str)) (i j : Nat)
    (hj : j ≤ i) (hi : i < l.length) :
    segsum u (l.eraseIdx i) j = segsum u l j := by
  unfold segsum
  congr 2
  rw [eraseIdx_eq_take_drop, List.take_append_eq_append_take]
  have hA : (l.take i).length = i := by rw [List.length_take]; omega
  rw [hA, show j - i = 0 by omega, List.take_zero, List.append_nil, List.take_take,
    inf_eq_left.mpr hj]

theorem segsum_add (u : UnicodeData) (l : List (Int × Str)) (a b : Nat) :
    segsum u l (a + b) = segsum u l a + segsum u (l.drop a) b := by
  unfold segsum
  rw [List.take_add, List.map_append, List.sum_append]

theorem eraseIdx_drop {α : Type} (l : List α) (i : Nat) (hi : i < l.length) :
    (l.eraseIdx i).drop i = l.drop (i + 1) := by
  rw [eraseIdx_eq_take_drop]
  have hA : (l.take i).length = i := by rw [List.length_take]; omega
  rw [List.drop_append_eq_append_drop, hA, Nat.sub_self, List.drop_zero, List.drop_take,
    Nat.sub_self, List.take_zero, List.nil_append]

theorem segsum_eraseIdx_ge (u : UnicodeData) (l : List (Int × Str)) (i j : Nat)
    (hi : i < l.length) (hij : i ≤ j) :
    segsum u (l.eraseIdx i) j + segLen u l[i] = segsum u l (j + 1) := by
  have h1 : segsum u (l.eraseIdx i) j
      = segsum u (l.eraseIdx i) i + segsum u (l.drop (i + 1)) (j - i) := by
    rw [show j = i + (j - i) by omega, segsum_add, eraseIdx_drop l i hi]
    congr 2
    omega
  have h2 : segsum u (l.eraseIdx i) i = segsum u l i := segsum_eraseIdx_le u l i i le_rfl hi
  have h3 : segsum u l (j + 1) = segsum u l (i + 1) + segsum u (l.drop (i + 1)) (j - i) := by
    rw [show j + 1 = (i + 1) + (j - i) by omega, segsum_add]
  have h4 := segsum_succ u l i hi
  omega

theorem buf_remove (u : UnicodeData) (l : List (Int × Str)) (i : Nat) :
    (bufOf u l).take (segsum u l i) ++ (bufOf u l).drop (segsum u l (i + 1))
      = bufOf u (l.eraseIdx i) := by
  rw [eraseIdx_eq_take_drop, bufOf_append]
  congr 1
  · have h1 : bufOf u l = bufOf u (l.take i) ++ bufOf u (l.drop i) := by
      rw [← bufOf_append, List.take_append_drop]
    rw [h1, ← bufOf_take_length u l i, List.take_left]
  · rw [bufOf_drop]

theorem offs_remove (u : UnicodeData) (l : List (Int × Str)) (i : Nat) (hi : i < l.length) :
    (((offsOf u l 0).eraseIdx i).take i) ++
      (((offsOf u l 0).eraseIdx i).drop i).map
        (fun o => o - (segsum u l (i + 1) - segsum u l i))
      = offsOf u (l.eraseIdx i) 0 := by
  have hstep := segsum_succ u l i hi
  have hlen_er : ((offsOf u l 0).eraseIdx i).length = l.length - 1 := by
    rw [List.length_eraseIdx, offsOf_length, if_pos hi]
  have hlen_ler : (l.eraseIdx i).length = l.length - 1 := by
    rw [List.length_eraseIdx, if_pos hi]
  have htk : (((offsOf u l 0).eraseIdx i).take i).length = i := by
    rw [List.length_take, hlen_er]
    omega
  apply List.ext_getElem?
  intro j
  rw [List.getElem?_append, htk]
  by_cases hj : j < i
  · rw [if_pos hj, List.getElem?_take, if_pos hj, List.getElem?_eraseIdx, if_pos hj,
      offsOf_getElem?, offsOf_getElem?, if_pos (by omega), if_pos (by rw [hlen_ler]; omega)]
    have := segsum_eraseIdx_le u l i j (by omega) hi
    rw [this]
  · rw [if_neg hj]
    rw [List.getElem?_map, List.getElem?_drop, show i + (j - i) = j by omega,
      List.getElem?_eraseIdx, if_neg hj, offsOf_getElem?, offsOf_getElem?]
    by_cases hj2 : j < l.length - 1
    · rw [if_pos (by omega), if_pos (by rw [hlen_ler]; omega), Option.map_some']
      have hge := segsum_eraseIdx_ge u l i j hi (by omega)
      show some (0 + segsum u l (j + 1) - (segsum u l (i + 1) - segsum u l i))
        = some (0 + segsum u (l.eraseIdx i) j)
      congr 1
      omega
    · rw [if_neg (by omega), if_neg (by rw [hlen_ler]; omega)]
      simp

theorem bufOf_single (u : UnicodeData) (e : Int × Str) : bufOf u [e] = normBytes u e.2 := by
  simp [bufOf]

theorem offsOf_append_single (u : UnicodeData) (l : List (Int × Str)) (e : Int × Str) :
    ∀ a, offsOf u (l ++ [e]) a = offsOf u l a ++ [a + (l.map (segLen u)).sum] := by
  induction l with
  | nil => intro a; simp [offsOf]
  | cons f fs ih =>
    intro a
    show a :: offsOf u (fs ++ [e]) (a + segLen u f) = _
    rw [ih]
    simp [offsOf, Nat.add_assoc]

theorem add_mk (u : UnicodeData) (l : List (Int × Str)) (id : Int) (p : Str) :
    add_entry u (mkIndex u l) id p = mkIndex u (l ++ [(id, p)]) := by
  unfold add_entry mkIndex
  show SearchIndex.mk _ _ _ _ = SearchIndex.mk _ _ _ _
  congr 1
  · simp
  · show offsOf u l 0 ++ [(bufOf u l).length] = offsOf u (l ++ [(id, p)]) 0
    rw [offsOf_append_single, bufOf_length]
    simp
  · show bufOf u l ++ normBytes u p = bufOf u (l ++ [(id, p)])
    rw [bufOf_append, bufOf_single]
  · simp

theorem remove_mk (u : UnicodeData) (l : List (Int × Str)) (p : Str) :
    remove_entry (mkIndex u l) p =
      match position p (l.map Prod.snd) with
      | none => (false, mkIndex u l)
      | some i => (true, mkIndex u (l.eraseIdx i)) := by
  have hop : (mkIndex u l).original_paths = l.map Prod.snd := rfl
  cases hpos : position p (l.map Prod.snd) with
  | none =>
    unfold remove_entry
    rw [hop, hpos]
  | some i =>
    have hi : i < l.length := by
      have := position_some_lt hpos
      simpa using this
    unfold remove_entry
    rw [hop, hpos]
    have hstart : (offsOf u l 0).getD i 0 = segsum u l i := by
      rw [offsOf_getD u l 0 i hi]
      omega
    have hstop : (if i + 1 < (offsOf u l 0).length then (offsOf u l 0).getD (i + 1) 0
        else (bufOf u l).length) = segsum u l (i + 1) := by
      rw [offsOf_length]
      by_cases h2 : i + 1 < l.length
      · rw [if_pos h2, offsOf_getD u l 0 (i + 1) h2]
        omega
      · rw [if_neg h2, show i + 1 = l.length by omega, segsum_full]
    show (true, SearchIndex.mk ((l.map Prod.fst).eraseIdx i)
        ((((offsOf u l 0).eraseIdx i).take i) ++
          (((offsOf u l 0).eraseIdx i).drop i).map
            (fun o => o -
              ((if i + 1 < (offsOf u l 0).length then (offsOf u l 0).getD (i + 1) 0
                else (bufOf u l).length) - (offsOf u l 0).getD i 0)))
        ((bufOf u l).take ((offsOf u l 0).getD i 0) ++
          (bufOf u l).drop (if i + 1 < (offsOf u l 0).length then (offsOf u l 0).getD (i + 1) 0
            else (bufOf u l).length))
        ((l.map Prod.snd).eraseIdx i))
      = (true, mkIndex u (l.eraseIdx i))
    rw [hstart, hstop]
    show (true, SearchIndex.mk _ _ _ _) = (true, SearchIndex.mk _ _ _ _)
    rw [Prod.mk.injEq]
    refine ⟨rfl, ?_⟩
    show SearchIndex.mk _ _ _ _ = SearchIndex.mk _ _ _ _
    congr 1
    · rw [map_eraseIdx]
    · exact offs_remove u l i hi
    · exact buf_remove u l i
    · rw [map_eraseIdx]

theorem setPath_length : ∀ (l : List (Int × Str)) (i : Nat) (q : Str),
    (setPath l i q).length = l.length := by
  intro l
  induction l with
  | nil => intro i q; rfl
  | cons e es ih =>
    intro i q
    cases i with
    | zero => rfl
    | succ i => show (e :: setPath es i q).length = _; simp [ih]

theorem setPath_eq : ∀ (l : List (Int × Str)) (i : Nat) (q : Str) (hi : i < l.length),
    setPath l i q = l.take i ++ (l[i].1, q) :: l.drop (i + 1) := by
  intro l
  induction l with
  | nil => intro i q hi; simp at hi
  | cons e es ih =>
    intro i q hi
    cases i with
    | zero => simp [setPath]
    | succ i =>
      show e :: setPath es i q = _
      rw [ih i q (by simpa using hi), List.take_succ_cons]
      rfl

theorem map_fst_setPath : ∀ (l : List (Int × Str)) (i : Nat) (q : Str),
    (setPath l i q).map Prod.fst = l.map Prod.fst := by
  intro l
  induction l with
  | nil => intro i q; rfl
  | cons e es ih =>
    intro i q
    cases i with
    | zero => rfl
    | succ i => show _ :: (setPath es i q).map Prod.fst = _; rw [ih]; rfl

theorem map_snd_setPath : ∀ (l : List (Int × Str)) (i : Nat) (q : Str),
    (l.map Prod.snd).set i q = (setPath l i q).map Prod.snd := by
  intro l
  induction l with
  | nil => intro i q; rfl
  | cons e es ih =>
    intro i q
    cases i with
    | zero => rfl
    | succ i =>
      show _ :: (es.map Prod.snd).set i q = _
      rw [ih]
      rfl

theorem segsum_setPath_le (u : UnicodeData) : ∀ (l : List (Int × Str)) (i j : Nat) (q : Str),
    j ≤ i → segsum u (setPath l i q) j = segsum u l j := by
  intro l
  induction l with
  | nil => intro i j q hj; rfl
  | cons e es ih =>
    intro i j q hj
    cases i with
    | zero =>
      have hj0 : j = 0 := by omega
      subst hj0
      rfl
    | succ i =>
      cases j with
      | zero => rfl
      | succ j =>
        show segsum u (e :: setPath es i q) (j + 1) = _
        rw [segsum_cons, segsum_cons, ih i j q (by omega)]

theorem segsum_setPath_ge (u : UnicodeData) :
    ∀ (l : List (Int × Str)) (i j : Nat) (q : Str) (hi : i < l.length), i < j →
    segsum u (setPath l i q) j + segLen u l[i] = segsum u l j + (normBytes u q).length := by
  intro l
  induction l with
  | nil => intro i j q hi _; simp at hi
  | cons e es ih =>
    intro i j q hi hij
    cases i with
    | zero =>
      cases j with
      | zero => omega
      | succ j =>
        show segsum u ((e.1, q) :: es) (j + 1) + segLen u e = _
        rw [segsum_cons, segsum_cons]
        have hq : segLen u ((e.1, q) : Int × Str) = (normBytes u q).length := rfl
        omega
    | succ i =>
      cases j with
      | zero => omega
      | succ j =>
        show segsum u (e :: setPath es i q) (j + 1) + segLen u (e :: es)[i + 1] = _
        rw [segsum_cons, segsum_cons, List.getElem_cons_succ]
        have h := ih i j q (by simpa using hi) (by omega)
        omega

theorem buf_rename (u : UnicodeData) (l : List (Int × Str)) (i : Nat) (hi : i < l.length)
    (q : Str) :
    (bufOf u l).take (segsum u l i) ++ normBytes u q ++ (bufOf u l).drop (segsum u l (i + 1))
      = bufOf u (setPath l i q) := by
  rw [setPath_eq l i q hi, bufOf_append, bufOf_cons]
  have h1 : (bufOf u l).take (segsum u l i) = bufOf u (l.take i) := by
    have h : bufOf u l = bufOf u (l.take i) ++ bufOf u (l.drop i) := by
      rw [← bufOf_append, List.take_append_drop]
    rw [h, ← bufOf_take_length u l i, List.take_left]
  rw [h1, bufOf_drop, List.append_assoc]

theorem offs_rename_eq (u : UnicodeData) (l : List (Int × Str)) (i : Nat) (hi : i < l.length)
    (q : Str) (hz : (normBytes u q).length = segLen u l[i]) :
    offsOf u l 0 = offsOf u (setPath l i q) 0 := by
  apply List.ext_getElem?
  intro j
  rw [offsOf_getElem?, offsOf_getElem?, setPath_length]
  by_cases hj : j < l.length
  · rw [if_pos hj, if_pos hj]
    by_cases hji : j ≤ i
    · rw [segsum_setPath_le u l i j q hji]
    · have hge := segsum_setPath_ge u l i j q hi (by omega)
      have hstep := segsum_succ u l i hi
      congr 1
      omega
  · rw [if_neg hj, if_neg hj]

theorem offs_rename (u : UnicodeData) (l : List (Int × Str)) (i : Nat) (hi : i < l.length)
    (q : Str) :
    (offsOf u l 0).take (i + 1) ++
      ((offsOf u l 0).drop (i + 1)).map
        (fun (o : Nat) => ((o : Int) +
          (((normBytes u q).length : Int) - ((segsum u l (i + 1) - segsum u l i : Nat) : Int))).toNat)
      = offsOf u (setPath l i q) 0 := by
  have hstep := segsum_succ u l i hi
  have htk : ((offsOf u l 0).take (i + 1)).length = i + 1 := by
    rw [List.length_take, offsOf_length]
    omega
  apply List.ext_getElem?
  intro j
  rw [List.getElem?_append, htk]
  by_cases hj : j < i + 1
  · rw [if_pos hj, List.getElem?_take, if_pos hj, offsOf_getElem?, offsOf_getElem?,
      setPath_length]
    by_cases hjl : j < l.length
    · rw [if_pos hjl, if_pos hjl, segsum_setPath_le u l i j q (by omega)]
    · rw [if_neg hjl, if_neg hjl]
  · rw [if_neg hj]
    rw [List.getElem?_map, List.getElem?_drop, show i + 1 + (j - (i + 1)) = j by omega,
      offsOf_getElem?, offsOf_getElem?, setPath_length]
    by_cases hjl : j < l.length
    · rw [if_pos hjl, if_pos hjl, Option.map_some']
      have hge := segsum_setPath_ge u l i j q hi (by omega)
      show some (((((0 : Nat) + segsum u l j : Nat) : Int) +
        (((normBytes u q).length : Int) - ((segsum u l (i + 1) - segsum u l i : Nat) : Int))).toNat)
        = some (0 + segsum u (setPath l i q) j)
      congr 1
      omega
    · rw [if_neg hjl, if_neg hjl]
      rfl

theorem rename_mk (u : UnicodeData) (l : List (Int × Str)) (p q : Str) :
    rename_entry u (mkIndex u l) p q =
      match position p (l.map Prod.snd) with
      | none => (false, mkIndex u l)
      | some i => (true, mkIndex u (setPath l i q)) := by
  have hop : (mkIndex u l).original_paths = l.map Prod.snd := rfl
  cases hpos : position p (l.map Prod.snd) with
  | none =>
    unfold rename_entry
    rw [hop, hpos]
  | some i =>
    have hi : i < l.length := by
      have := position_some_lt hpos
      simpa using this
    unfold rename_entry
    rw [hop, hpos]
    have hstart : (offsOf u l 0).getD i 0 = segsum u l i := by
      rw [offsOf_getD u l 0 i hi]
      omega
    have hstop : (if i + 1 < (offsOf u l 0).length then (offsOf u l 0).getD (i + 1) 0
        else (bufOf u l).length) = segsum u l (i + 1) := by
      rw [offsOf_length]
      by_cases h2 : i + 1 < l.length
      · rw [if_pos h2, offsOf_getD u l 0 (i + 1) h2]
        omega
      · rw [if_neg h2, show i + 1 = l.length by omega, segsum_full]
    show (true, SearchIndex.mk (l.map Prod.fst)
        (if (((normBytes u q).length : Int) -
            (((if i + 1 < (offsOf u l 0).length then (offsOf u l 0).getD (i + 1) 0
              else (bufOf u l).length) - (offsOf u l 0).getD i 0 : Nat) : Int) = 0)
          then offsOf u l 0
          else (offsOf u l 0).take (i + 1) ++
            ((offsOf u l 0).drop (i + 1)).map
              (fun (o : Nat) => ((o : Int) +
                (((normBytes u q).length : Int) -
                  (((if i + 1 < (offsOf u l 0).length then (offsOf u l 0).getD (i + 1) 0
                    else (bufOf u l).length) - (offsOf u l 0).getD i 0 : Nat) : Int))).toNat))
        ((bufOf u l).take ((offsOf u l 0).getD i 0) ++ normBytes u q ++
          (bufOf u l).drop (if i + 1 < (offsOf u l 0).length then (offsOf u l 0).getD (i + 1) 0
            else (bufOf u l).length))
        ((l.map Prod.snd).set i q))
      = (true, mkIndex u (setPath l i q))
    rw [hstart, hstop]
    rw [Prod.mk.injEq]
    refine ⟨rfl, ?_⟩
    show SearchIndex.mk _ _ _ _ = SearchIndex.mk _ _ _ _
    congr 1
    · rw [map_fst_setPath]
    · by_cases hd : (((normBytes u q).length : Int) -
          ((segsum u l (i + 1) - segsum u l i : Nat) : Int) = 0)
      · rw [if_pos hd]
        have hz : (normBytes u q).length = segLen u l[i] := by
          have hstep := segsum_succ u l i hi
          omega
        exact offs_rename_eq u l i hi q hz
      · rw [if_neg hd]
        exact offs_rename u l i hi q
    · exact buf_rename u l i hi q
    · rw [map_snd_setPath]

theorem applyOp_mk (u : UnicodeData) (l : List (Int × Str)) (op : Op) :
    applyOp u (mkIndex u l) op = mkIndex u (applyAbs l op) := by
  cases op with
  | add id p => exact add_mk u l id p
  | remove p =>
    show (remove_entry (mkIndex u l) p).2 = mkIndex u
      (match position p (l.map Prod.snd) with
      | none => l
      | some i => l.eraseIdx i)
    rw [remove_mk]
    cases position p (l.map Prod.snd) <;> rfl
  | rename p q =>
    show (rename_entry u (mkIndex u l) p q).2 = mkIndex u
      (match position p (l.map Prod.snd) with
      | none => l
      | some i => setPath l i q)
    rw [rename_mk]
    cases position p (l.map Prod.snd) <;> rfl

theorem foldl_applyOp_mk (u : UnicodeData) :
    ∀ (ops : List Op) (l : List (Int × Str)),
      ops.foldl (applyOp u) (mkIndex u l) = mkIndex u (ops.foldl applyAbs l) := by
  intro ops
  induction ops with
  | nil => intro l; rfl
  | cons op ops ih =>
    intro l
    rw [List.foldl_cons, List.foldl_cons, applyOp_mk, ih]

/-! ## Search and invariant lemmas -/

theorem utf8Encode_ne_nil (c : Nat) : utf8Encode c ≠ [] := by
  unfold utf8Encode
  split
  · simp
  · split
    · simp
    · split <;> simp

theorem strBytes_eq_nil_iff (s : Str) : strBytes s = [] ↔ s = [] := by
  cases s with
  | nil => simp [strBytes]
  | cons c cs =>
    constructor
    · intro h
      rw [strBytes, List.flatMap_cons] at h
      rcases List.append_eq_nil.mp h with ⟨h1, _⟩
      exact absurd h1 (utf8Encode_ne_nil c)
    · intro h
      simp at h

theorem getD_map_fst (l : List (Int × Str)) (i : Nat) (hi : i < l.length) :
    (l.map Prod.fst).getD i 0 = l[i].1 := by
  rw [List.getD_eq_getElem?_getD, List.getElem?_map, List.getElem?_eq_getElem hi]
  rfl

theorem range_filterMap_entries (P : (Int × Str) → Bool) :
    ∀ (l : List (Int × Str)) (F : Nat → Option Int),
      (∀ i (hi : i < l.length), F i = if P l[i] then some l[i].1 else none) →
      (List.range l.length).filterMap F = (l.filter P).map Prod.fst := by
  intro l
  induction l with
  | nil => intro F _; rfl
  | cons e es ih =>
    intro F h
    rw [List.length_cons, List.range_succ_eq_map, List.filterMap_cons, List.filterMap_map]
    have h0 : F 0 = if P e then some e.1 else none := h 0 (by simp)
    have hrec : (List.range es.length).filterMap (fun i => F (Nat.succ i))
        = (es.filter P).map Prod.fst := by
      apply ih
      intro i hi
      have := h (i + 1) (by simpa using Nat.succ_lt_succ hi)
      rw [this]
      rfl
    rw [h0]
    by_cases hp : P e
    · rw [if_pos hp, List.filter_cons, if_pos hp]
      show e.1 :: _ = e.1 :: _
      rw [← hrec]
      rfl
    · rw [if_neg hp, List.filter_cons, if_neg hp]
      rw [← hrec]
      rfl

theorem range_flatMap_entries (u : UnicodeData) :
    ∀ (l : List (Int × Str)) (F : Nat → List Nat),
      (∀ i (hi : i < l.length), F i = normBytes u l[i].2) →
      (List.range l.length).flatMap F = bufOf u l := by
  intro l
  induction l with
  | nil => intro F _; rfl
  | cons e es ih =>
    intro F h
    rw [List.length_cons, List.range_succ_eq_map, List.flatMap_cons, List.flatMap_map,
      bufOf_cons]
    have h0 : F 0 = normBytes u e.2 := h 0 (by simp)
    have hrec : (List.range es.length).flatMap (fun i => F (Nat.succ i)) = bufOf u es := by
      apply ih
      intro i hi
      have := h (i + 1) (by simpa using Nat.succ_lt_succ hi)
      rw [this]
      rfl
    rw [h0]
    rw [← hrec]

theorem search_single_mk (u : UnicodeData) (l : List (Int × Str)) (t : Str) :
    search_single_term u (mkIndex u l) t =
      if strBytes (normalize_path u t) = [] then []
      else (l.filter (fun e =>
        containsBytes (strBytes (normalize_path u t)) (normBytes u e.2))).map Prod.fst := by
  unfold search_single_term
  have hlen : (mkIndex u l).ids.length = l.length := List.length_map _ _
  rw [hlen]
  by_cases hne : strBytes (normalize_path u t) = []
  · rw [if_pos hne, hne]
    rfl
  · rw [if_neg hne, if_neg (by simpa [List.isEmpty_iff] using hne)]
    apply range_filterMap_entries
    intro i hi
    rw [get_path_bytes_mk u l i hi]
    have : (mkIndex u l).ids.getD i 0 = l[i].1 := getD_map_fst l i hi
    rw [this]

theorem packed_mk (u : UnicodeData) (l : List (Int × Str)) : Packed (mkIndex u l) := by
  have hids : (mkIndex u l).ids.length = l.length := List.length_map _ _
  have hop : (mkIndex u l).original_paths.length = l.length := List.length_map _ _
  have hoffs : (mkIndex u l).offsets.length = l.length := offsOf_length u l 0
  refine ⟨by rw [hids, hop], by rw [hoffs, hop], offsOf_pairwise u l 0, ?_⟩
  rw [hoffs]
  exact range_flatMap_entries u l _ (fun i hi => get_path_bytes_mk u l i hi)

/-! ## Metadata duration lemmas -/

theorem orO_none_left {α : Type} (b : Option α) : orO none b = b := rfl

theorem orO_some {α : Type} (a : α) (b : Option α) : orO (some a) b = some a := rfl

theorem orO_none_right {α : Type} (a : Option α) : orO a none = a := by
  cases a <;> rfl

/-- Duration contributed by one stream record, `dur.parse().ok()`. -/
def streamDur {α : Type} (parse : Str → Option α) (s : FfprobeStream) : Option α :=
  match s.duration with
  | some dur => parse dur
  | none => none

theorem videoDur_cons_pos {α : Type} (parse : Str → Option α) (s : FfprobeStream)
    (rest : List FfprobeStream) (hv : s.codec_type = some videoT) :
    videoDur parse (s :: rest) = streamDur parse s := by
  unfold videoDur streamDur
  rw [List.find?_cons_of_pos]
  simp [hv]

theorem videoDur_cons_neg {α : Type} (parse : Str → Option α) (s : FfprobeStream)
    (rest : List FfprobeStream) (hv : ¬ s.codec_type = some videoT) :
    videoDur parse (s :: rest) = videoDur parse rest := by
  unfold videoDur
  rw [List.find?_cons_of_neg]
  simp [hv]

theorem audioDur_cons_video {α : Type} (parse : Str → Option α) (s : FfprobeStream)
    (rest : List FfprobeStream) (hv : s.codec_type = some videoT) :
    audioDur parse (s :: rest) = none := by
  unfold audioDur
  rw [List.takeWhile_cons]
  simp [hv]

theorem audioDur_cons_audio {α : Type} (parse : Str → Option α) (s : FfprobeStream)
    (rest : List FfprobeStream) (ha : s.codec_type = some audioT) :
    audioDur parse (s :: rest) = orO (streamDur parse s) (audioDur parse rest) := by
  unfold audioDur
  rw [List.takeWhile_cons]
  rw [if_pos (by rw [ha]; decide), List.filter_cons, if_pos (by rw [ha]; decide),
    List.findSome?_cons]
  show (match streamDur parse s with
    | some b => some b
    | none => _) = _
  cases streamDur parse s <;> rfl

theorem audioDur_cons_skip {α : Type} (parse : Str → Option α) (s : FfprobeStream)
    (rest : List FfprobeStream) (hv : ¬ s.codec_type = some videoT)
    (ha : ¬ s.codec_type = some audioT) :
    audioDur parse (s :: rest) = audioDur parse rest := by
  unfold audioDur
  rw [List.takeWhile_cons]
  rw [if_pos (by simp [hv]), List.filter_cons, if_neg (by simp [ha])]

theorem duration_codec_fill {α : Type} (m1 : MediaMetadata α) (c : Option Str) :
    (if m1.codec.isNone = true then { m1 with codec := c } else m1).duration
      = m1.duration := by
  split <;> rfl

theorem video_branch_duration {α : Type} (parse : Str → Option α) (m1 : MediaMetadata α)
    (sd : Option Str) :
    (match sd with
      | some dur =>
        match parse dur with
        | some d => { m1 with duration := some d }
        | none => m1
      | none => m1).duration
      = orO (match sd with | some dur => parse dur | none => none) m1.duration := by
  cases sd with
  | none => rfl
  | some dur =>
    show (match parse dur with
      | some d => ({ m1 with duration := some d } : MediaMetadata α)
      | none => m1).duration = orO (parse dur) m1.duration
    cases parse dur <;> rfl

theorem scanStreams_duration {α : Type} (parse : Str → Option α) :
    ∀ (ss : List FfprobeStream) (m : MediaMetadata α),
      (scanStreams parse ss m).duration
        = orO (videoDur parse ss) (orO m.duration (audioDur parse ss)) := by
  intro ss
  induction ss with
  | nil =>
    intro m
    show m.duration = orO none (orO m.duration none)
    rw [orO_none_left, orO_none_right]
  | cons s rest ih =>
    intro m
    by_cases hv : s.codec_type = some videoT
    · rw [videoDur_cons_pos parse s rest hv, audioDur_cons_video parse s rest hv,
        orO_none_right]
      unfold scanStreams
      rw [if_pos hv]
      exact video_branch_duration parse
        { m with width := s.width, height := s.height, codec := s.codec_name } s.duration
    · by_cases ha : s.codec_type = some audioT
      · by_cases hn : m.duration = none
        · have hcond : s.codec_type = some audioT ∧ m.duration.isNone = true :=
            ⟨ha, by rw [hn]; rfl⟩
          unfold scanStreams
          rw [if_neg hv, if_pos hcond, ih, videoDur_cons_neg parse s rest hv,
            audioDur_cons_audio parse s rest ha, hn, orO_none_left, duration_codec_fill]
          have hm1 : (match s.duration with
              | some dur => { m with duration := parse dur }
              | none => m : MediaMetadata α).duration = streamDur parse s := by
            unfold streamDur
            cases s.duration with
            | none => exact hn
            | some dur => rfl
          rw [hm1]
        · have hcond : ¬ (s.codec_type = some audioT ∧ m.duration.isNone = true) := by
            intro hc
            exact hn (Option.isNone_iff_eq_none.mp hc.2)
          unfold scanStreams
          rw [if_neg hv, if_neg hcond, ih, videoDur_cons_neg parse s rest hv,
            audioDur_cons_audio parse s rest ha]
          cases hm : m.duration with
          | none => exact absurd hm hn
          | some x => rw [orO_some, orO_some]
      · have hcond : ¬ (s.codec_type = some audioT ∧ m.duration.isNone = true) := by
          intro hc
          exact ha hc.1
        unfold scanStreams
        rw [if_neg hv, if_neg hcond, ih, videoDur_cons_neg parse s rest hv,
          audioDur_cons_skip parse s rest hv ha]

theorem extract_m1_duration {α : Type} (parse : Str → Option α) (d : FfprobeOutput) :
    (match d.format with
      | some f =>
        match f.duration with
        | some dur => ({ width := none, height := none, duration := parse dur,
                         codec := none, format := f.format_name } : MediaMetadata α)
        | none => { width := none, height := none, duration := none,
                    codec := none, format := f.format_name }
      | none => ({} : MediaMetadata α)).duration = formatDur parse d := by
  unfold formatDur
  cases d.format with
  | none => rfl
  | some f =>
    show (match f.duration with
      | some dur => ({ width := none, height := none, duration := parse dur,
                       codec := none, format := f.format_name } : MediaMetadata α)
      | none => { width := none, height := none, duration := none,
                  codec := none, format := f.format_name }).duration
      = match f.duration with
        | some dur => parse dur
        | none => none
    cases f.duration <;> rfl

theorem extract_duration {α : Type} (parse : Str → Option α) (d : FfprobeOutput) :
    (extract parse d).duration
      = orO (firstVideoDur parse d) (orO (formatDur parse d) (firstAudioDur parse d)) := by
  unfold extract firstVideoDur firstAudioDur
  cases hs : d.streams with
  | none =>
    rw [show videoDur parse ((none : Option (List FfprobeStream)).getD []) = none from rfl,
      show audioDur parse ((none : Option (List FfprobeStream)).getD []) = none from rfl,
      orO_none_left, orO_none_right]
    exact extract_m1_duration parse d
  | some ss =>
    show (scanStreams parse ss _).duration = _
    rw [scanStreams_duration, extract_m1_duration parse d]
    rfl

/-! ## Claim theorems -/

/-- Modelled from the spec: the spec's "combining-mark (diacritic) code
points" are Unicode combining marks (general categories Mn/Mc/Me).  This
fragment lists, besides the five ranges the code strips, combining-mark
ranges the code does *not* strip: the Hebrew points U+0591-U+05BD, the
Devanagari nukta U+093C, and the kana voicing marks U+3099-U+309A. -/
def combining_mark_unicode (c : Nat) : Bool :=
  is_combining_mark c ||
  decide ((0x591 ≤ c ∧ c ≤ 0x5BD) ∨ c = 0x93C ∨ (0x3099 ≤ c ∧ c ≤ 0x309A))

/-- "10" -/
def tenS : Str := [49, 48]

/-- "5" -/
def fiveS : Str := [53]

/-- "mp3" -/
def mp3S : Str := [109, 112, 51]

/-- A duration parser defined on the two concrete duration strings of the C9
counterexample (standing for `str::parse::<f64>`). -/
def parseCx : Str → Option Nat :=
  fun s => if s = tenS then some 10 else if s = fiveS then some 5 else none

/-- Probe output with a container duration of 10 and a single audio stream of
duration 5 and no video stream. -/
def probeCx : FfprobeOutput :=
  { format := some { format_name := some mp3S, duration := some tenS },
    streams := some [{ codec_type := some audioT, codec_name := some mp3S,
                       width := none, height := none, duration := some fiveS }] }

/-- C1: evaluating `search` at the failing input of the multi-term claim: on
the corpus {1 ↦ "aba"}, the query "ab ba" returns `[]` even though both
normalized tokens occur as literal substrings of the normalized entry text.
The non-overlapping `find_iter` scan reports "ab" at 0..2, resumes at offset
2, and never reports the overlapping "ba", so the all-patterns-matched test
fails — contradicting the claimed AND-over-substring-containment semantics
(and the function's own doc comment "All terms must appear in the path for a
match"). -/
theorem C1_multi_term_eval :
    search uEx (build_from_entries uEx [(1, abaS)]) abbaQ = [] ∧
    containsBytes (strBytes (normalize_path uEx abS))
      (strBytes (normalize_path uEx abaS)) = true ∧
    containsBytes (strBytes (normalize_path uEx baS))
      (strBytes (normalize_path uEx abaS)) = true := by
  refine ⟨by decide, by decide, by decide⟩

/-- C2: for every index built from entries and every query splitting into
exactly one token with non-empty normalization, `search` returns exactly the
ids (in index order) of the entries whose normalized text contains the
normalized token as a literal byte substring; and on the example corpus,
search("report") = [1], search("docs") = [1, 2], search("zzz") = []. -/
theorem C2_single_term_search :
    (∀ (u : UnicodeData) (l : List (Int × Str)) (q t : Str),
      (splitWh q).filter (fun s => !s.isEmpty) = [t] →
      normalize_path u t ≠ [] →
      search u (build_from_entries u l) q
        = (l.filter (fun e => containsBytes (strBytes (normalize_path u t))
            (strBytes (normalize_path u e.2)))).map Prod.fst) ∧
    search uEx (build_from_entries uEx entriesEx) qReport = [1] ∧
    search uEx (build_from_entries uEx entriesEx) qDocs = [1, 2] ∧
    search uEx (build_from_entries uEx entriesEx) qZzz = [] := by
  refine ⟨?_, by decide, by decide, by decide⟩
  intro u l q t hsplit hnorm
  rw [build_eq_mk]
  unfold search
  rw [hsplit]
  show search_single_term u (mkIndex u l) t = _
  rw [search_single_mk, if_neg (fun hc => hnorm ((strBytes_eq_nil_iff _).mp hc))]
  rfl

/-- C2 witness: the universal part applied at the "report" query over the
example corpus. -/
theorem C2_single_term_search_witness :
    ((splitWh qReport).filter (fun s => !s.isEmpty) = [qReport]) ∧
    normalize_path uEx qReport ≠ [] ∧
    search uEx (build_from_entries uEx entriesEx) qReport
      = ((entriesEx.filter (fun e => containsBytes (strBytes (normalize_path uEx qReport))
          (strBytes (normalize_path uEx e.2)))).map Prod.fst) :=
  ⟨by decide, by decide,
    C2_single_term_search.1 uEx entriesEx qReport qReport (by decide) (by decide)⟩

/-- C3: `normalize_path` is idempotent, for every Unicode data satisfying the
`GoodUnicode` facts of the real NFD/lowercase tables. -/
theorem C3_normalize_idempotent :
    ∀ (u : UnicodeData), GoodUnicode u →
      ∀ (s : Str), normalize_path u (normalize_path u s) = normalize_path u s :=
  fun _ hu s => normalize_path_idem hu s

/-- C3 witness: the concrete table fragment `uEx` satisfies `GoodUnicode`,
and idempotence instantiated at "café". -/
theorem C3_normalize_idempotent_witness :
    GoodUnicode uEx ∧
      normalize_path uEx (normalize_path uEx cafeAcc) = normalize_path uEx cafeAcc :=
  ⟨goodUEx, C3_normalize_idempotent uEx goodUEx cafeAcc⟩

/-- C4 counterexample: normalize_path("ガ") = カ followed by U+3099, the kana
combining voicing mark: U+3099 is a Unicode combining mark but is not matched
by the code's `is_combining_mark` ranges, so the output *does* contain a
combining-mark code point, refuting "every combining-mark code point removed
/ the output contains no combining-mark code points". -/
theorem C4_counterexample :
    normalize_path uEx [0x30AC] = [0x30AB, 0x3099] ∧
    combining_mark_unicode 0x3099 = true ∧
    is_combining_mark 0x3099 = false := by
  refine ⟨by decide, by decide, by decide⟩

/-- C4 amended: normalize_path is NFD, removal of the combining marks in the
five ranges matched by `is_combining_mark` (only), and lowercasing; the
output contains no code point from those five ranges (for Unicode data
satisfying `GoodUnicode`), and normalize_path("café") = "cafe",
normalize_path("RÉSUMÉ") = "resume". -/
theorem C4_normalize_strips_listed_ranges :
    (∀ (u : UnicodeData), GoodUnicode u →
      ∀ (s : Str) (c : Nat), c ∈ normalize_path u s → is_combining_mark c = false) ∧
    normalize_path uEx cafeAcc = cafePlain ∧
    normalize_path uEx resumeUpper = resumePlain := by
  refine ⟨?_, by decide, by decide⟩
  intro u hu s c hc
  exact (normalize_path_mem_fixed hu s c hc).2

/-- C4 witness: the universal part applied at "café" and its first output
code point. -/
theorem C4_normalize_strips_listed_ranges_witness :
    GoodUnicode uEx ∧ (99 ∈ normalize_path uEx cafeAcc) ∧ is_combining_mark 99 = false :=
  ⟨goodUEx, by decide,
    C4_normalize_strips_listed_ranges.1 uEx goodUEx cafeAcc 99 (by decide)⟩

/-- C5: removing or renaming a path that is not among the stored original
paths returns `false` and leaves the index completely unchanged (all four
components), for every index, without any error (both functions are total). -/
theorem C5_absent_path_noop :
    ∀ (u : UnicodeData) (idx : SearchIndex) (p q : Str),
      p ∉ idx.original_paths →
      remove_entry idx p = (false, idx) ∧ rename_entry u idx p q = (false, idx) := by
  intro u idx p q hp
  have hpos := position_eq_none hp
  constructor
  · unfold remove_entry
    rw [hpos]
  · unfold rename_entry
    rw [hpos]

/-- C5 witness: applied to the example corpus and the absent path "/nope". -/
theorem C5_absent_path_noop_witness :
    (pathNope ∉ (build_from_entries uEx entriesEx).original_paths) ∧
    remove_entry (build_from_entries uEx entriesEx) pathNope
      = (false, build_from_entries uEx entriesEx) ∧
    rename_entry uEx (build_from_entries uEx entriesEx) pathNope pathA
      = (false, build_from_entries uEx entriesEx) := by
  have h := C5_absent_path_noop uEx (build_from_entries uEx entriesEx) pathNope pathA
    (by decide)
  exact ⟨by decide, h.1, h.2⟩

/-- C6 counterexample: adding the same path twice (add_entry does not
deduplicate) yields an index with 2 entries but only 1 distinct original
path, refuting "entry count equals the number of distinct paths currently
indexed". -/
theorem C6_counterexample :
    ([Op.add 1 pathA, Op.add 2 pathA].foldl (applyOp uEx)
      (build_from_entries uEx [])).ids.length = 2 ∧
    (([Op.add 1 pathA, Op.add 2 pathA].foldl (applyOp uEx)
      (build_from_entries uEx [])).original_paths.dedup).length = 1 := by
  refine ⟨by decide, by decide⟩

/-- C6 amended: every sequence of build_from_entries / add_entry /
remove_entry / rename_entry operations preserves the packed-index structural
invariant — the ids, offsets and original_paths vectors have equal length,
the offsets are monotonically non-decreasing, and the per-entry byte ranges
partition the shared buffer with no gaps or overlaps; the entry count equals
the number of entries retained, which can exceed the number of *distinct*
paths since duplicates are not rejected. -/
theorem C6_packed_invariant :
    ∀ (u : UnicodeData) (l0 : List (Int × Str)) (ops : List Op),
      Packed (ops.foldl (applyOp u) (build_from_entries u l0)) := by
  intro u l0 ops
  rw [build_eq_mk, foldl_applyOp_mk]
  exact packed_mk u _

/-- C7: any sequence of add/remove/rename operations applied to a built
index yields, for every query, exactly the results of a fresh
build_from_entries over the abstract final (id, path) list (in fact the two
indexes are equal as data structures, per `foldl_applyOp_mk`). -/
theorem C7_mutation_equivalence :
    ∀ (u : UnicodeData) (l0 : List (Int × Str)) (ops : List Op) (q : Str),
      search u (ops.foldl (applyOp u) (build_from_entries u l0)) q
        = search u (build_from_entries u (ops.foldl applyAbs l0)) q := by
  intro u l0 ops q
  rw [build_eq_mk, build_eq_mk, foldl_applyOp_mk]

/-- C8: run_full_index invoked with the running flag set returns immediately
with Ok of all-zero stats, without vacuuming or walking, leaving the flag
set; and a non-short-circuited run (whether the scan body returns Ok or Err)
returns with the flag cleared and the body's result. -/
theorem C8_single_flight :
    ∀ (ε : Type) (r : Except ε IndexStats),
      run_full_index ε true r =
        { result := Except.ok IndexStats.zero, running_after := true,
          vacuumed := false, walked := false } ∧
      IndexStats.zero.files_scanned = 0 ∧ IndexStats.zero.files_indexed = 0 ∧
      IndexStats.zero.files_updated = 0 ∧ IndexStats.zero.files_removed = 0 ∧
      IndexStats.zero.files_skipped = 0 ∧ IndexStats.zero.errors = 0 ∧
      (run_full_index ε false r).running_after = false ∧
      (run_full_index ε false r).result = r :=
  fun _ _ => ⟨rfl, rfl, rfl, rfl, rfl, rfl, rfl, rfl, rfl⟩

/-- C9 counterexample: a probe output with no video stream, an audio stream
whose duration parses to 5, and a container (format) duration parsing to 10:
the code extracts 10 (container), not 5 (audio), because the audio branch
runs only while the duration is still None and the container duration was
already set — refuting "the audio stream's duration is used when no video
stream is present" / "the container-level duration is used only if no stream
reports a duration". -/
theorem C9_counterexample :
    (∀ s ∈ probeCx.streams.getD [], ¬ s.codec_type = some videoT) ∧
    firstAudioDur parseCx probeCx = some 5 ∧
    formatDur parseCx probeCx = some 10 ∧
    (extract parseCx probeCx).duration = some 10 := by
  refine ⟨by decide, by decide, by decide, by decide⟩

/-- C9 amended: the extracted duration is the first video stream's parseable
duration when present; otherwise the container (format) duration when
parseable; and the first parseable audio duration (among streams preceding
the first video stream) only when both of those are absent. -/
theorem C9_duration_precedence :
    ∀ (α : Type) (parse : Str → Option α) (d : FfprobeOutput),
      (extract parse d).duration
        = orO (firstVideoDur parse d) (orO (formatDur parse d) (firstAudioDur parse d)) :=
  fun _ parse d => extract_duration parse d

/-- C10: a query splitting into exactly one token whose normalization is
empty returns the empty result (the empty needle is rejected before the
scan), for every index. -/
theorem C10_empty_normalized_token :
    ∀ (u : UnicodeData) (idx : SearchIndex) (q t : Str),
      (splitWh q).filter (fun s => !s.isEmpty) = [t] →
      normalize_path u t = [] →
      search u idx q = [] := by
  intro u idx q t hsplit hnorm
  unfold search
  rw [hsplit]
  show search_single_term u idx t = []
  unfold search_single_term
  rw [hnorm]
  rfl

/-- C10 witness: the query consisting of the single combining mark U+0301
normalizes to the empty string and returns no results on the example
corpus. -/
theorem C10_empty_normalized_token_witness :
    ((splitWh [0x301]).filter (fun s => !s.isEmpty) = [[0x301]]) ∧
    normalize_path uEx [0x301] = [] ∧
    search uEx (build_from_entries uEx entriesEx) [0x301] = [] :=
  ⟨by decide, by decide,
    C10_empty_normalized_token uEx (build_from_entries uEx entriesEx) [0x301] [0x301]
      (by decide) (by decide)⟩
